import Mathlib

/-!
Shallow embedding of the two core algorithms of the `redditsearchtool`
repository — the usage gate (`src/usageTracking.ts`) and the summary
post-processing pass (`cleanSummaryText` and `enhanceTextWithLinks` in
`src/App.tsx`) — together with theorems settling the specification
claims about them.

Strings are modelled as Lean `String`/`List Char`; JS numbers that only
ever hold counts are modelled as `Nat`, the `Infinity` daily limit as an
explicit `UsageLimit.infinity`, and relevance scores as `ℚ`.  Asynchronous
Firestore reads are modelled by passing the read outcome
(`Except StoreErr _`) to the function that awaits it.
-/

/-! ### Usage gate: data model (`src/usageTracking.ts`) -/

/-- `type UserTier = 'anonymous' | 'free' | 'paid'`. -/
inductive UserTier
  | anonymous
  | free
  | paid
deriving DecidableEq

/-- One entry of the model lists returned by `getAvailableModels`. -/
structure ModelOption where
  value : String
  label : String
  isFree : Bool
deriving DecidableEq

/-- `getAvailableModels` from `src/usageTracking.ts` (the `default` branch of
the `switch` is unreachable: the three cases cover the whole enum). -/
def getAvailableModels : UserTier → List ModelOption
  | .anonymous
  | .free =>
      [⟨"gemini-1.5-flash", "🆓 Gemini Flash (Free)", true⟩]
  | .paid =>
      [⟨"gemini-1.5-flash", "🆓 Gemini Flash (Free)", true⟩,
       ⟨"gemini-1.5-pro", "💎 Gemini Pro", false⟩,
       ⟨"claude-3-5-sonnet-20241022", "💎 Claude 3.5 Sonnet", false⟩,
       ⟨"claude-3-5-haiku-20241022", "💎 Claude 3 Haiku", false⟩]

/-- `isModelAllowed`: `availableModels.some(m => m.value === model)`. -/
def isModelAllowed (model : String) (tier : UserTier) : Bool :=
  (getAvailableModels tier).any (fun m => m.value == model)

/-- `export const ANONYMOUS_SEARCH_LIMIT = 1`. -/
def ANONYMOUS_SEARCH_LIMIT : Nat := 1

/-- A JS numeric limit: either a finite count bound or `Infinity`. -/
inductive UsageLimit
  | finite (n : Nat)
  | infinity
deriving DecidableEq

/-- `export const FREE_USER_DAILY_LIMIT = Infinity`. -/
def FREE_USER_DAILY_LIMIT : UsageLimit := .infinity

/-- `count < limit` where the limit may be `Infinity` (in JS,
`n < Infinity` is true for every number `n`). -/
def ltLimit (n : Nat) : UsageLimit → Bool
  | .finite m => decide (n < m)
  | .infinity => true

/-- JS `parseInt(s, 10)`: value of the longest leading decimal-digit run.
The code only ever stores decimal numerals in the cookie
(`newCount.toString()`); for a string with no leading digit JS yields
`NaN`, which no claim exercises — the model returns `0` there. -/
def digitsVal : List Char → Nat → Nat
  | [], acc => acc
  | c :: cs, acc => if c.isDigit then digitsVal cs (acc * 10 + (c.toNat - 48)) else acc

/-- See `digitsVal`. -/
def parseIntJS (s : String) : Nat := digitsVal s.data 0

/-- `getAnonymousSearchCount`: `count ? parseInt(count, 10) : 0` where
`count` is the cookie value (`null` when the cookie is absent; the empty
string is falsy). -/
def getAnonymousSearchCount (cookie : Option String) : Nat :=
  match cookie with
  | some s => if s = "" then 0 else parseIntJS s
  | none => 0

/-- `incrementAnonymousSearchCount`: reads the cookie, adds one, writes the
new value back as a decimal string, and returns the new count. -/
def incrementAnonymousSearchCount (cookie : Option String) : Option String × Nat :=
  let newCount := getAnonymousSearchCount cookie + 1
  (some (toString newCount), newCount)

/-- `getUserUsageDoc` document id: `` `${userId}_${today}` ``. -/
def usageDocId (userId today : String) : String := userId ++ "_" ++ today

/-- The `userUsage` Firestore collection: document id ↦ `searchCount` field.
(The `userId`, `date` and timestamp metadata fields written alongside are
never read back by this code and are omitted; a document whose
`searchCount` field is falsy is read as `0` by `|| 0`, which coincides
with storing the count itself.) -/
abbrev UserUsageStore := String → Option Nat

/-- `incrementDailySearchCount` (success path): atomic increment when the
document exists, create-with-1 otherwise; returns the new count
(`(usageDoc.data().searchCount || 0) + 1`, resp. `1`). -/
def incrementDailySearchCount (userId today : String) (store : UserUsageStore) :
    UserUsageStore × Nat :=
  let docId := usageDocId userId today
  match store docId with
  | some n => (fun k => if k = docId then some (n + 1) else store k, n + 1)
  | none => (fun k => if k = docId then some 1 else store k, 1)

/-- Failure of a persisted-store (Firestore) read. -/
inductive StoreErr
  | unavailable
deriving DecidableEq

/-- `getDailySearchCount`: the awaited `getDoc` outcome is passed in.
`Except.ok (some n)` = document exists with `searchCount` read as `n`;
`Except.ok none` = no document; `Except.error _` = the read failed, in
which case the `catch` block logs and returns `0`. -/
def getDailySearchCount (readResult : Except StoreErr (Option Nat)) : Nat :=
  match readResult with
  | .ok (some n) => n
  | .ok none => 0
  | .error _ => 0

/-- `interface UsageStatus` from `src/usageTracking.ts`. -/
structure UsageStatus where
  canSearch : Bool
  searchCount : Nat
  limit : UsageLimit
  isAuthenticated : Bool
  requiresSignIn : Bool
deriving DecidableEq

/-- `checkUsageStatus(userId?)`: authenticated path reads the per-day
counter (the awaited read outcome is `readResult`), anonymous path reads
the cookie. -/
def checkUsageStatus (userId : Option String)
    (readResult : Except StoreErr (Option Nat)) (cookie : Option String) : UsageStatus :=
  match userId with
  | some _ =>
      let searchCount := getDailySearchCount readResult
      { canSearch := ltLimit searchCount FREE_USER_DAILY_LIMIT
        searchCount := searchCount
        limit := FREE_USER_DAILY_LIMIT
        isAuthenticated := true
        requiresSignIn := false }
  | none =>
      let searchCount := getAnonymousSearchCount cookie
      { canSearch := decide (searchCount < ANONYMOUS_SEARCH_LIMIT)
        searchCount := searchCount
        limit := .finite ANONYMOUS_SEARCH_LIMIT
        isAuthenticated := false
        requiresSignIn := !decide (searchCount < ANONYMOUS_SEARCH_LIMIT) }

/-- The client-visible mutable state the gate touches: the anonymous
counter cookie and the per-user-per-day Firestore counters. -/
structure ClientState where
  cookie : Option String
  store : UserUsageStore

/-- `recordSearch(userId?)`: increments the counter belonging to the
given identity (success path of the Firestore write). -/
def recordSearch (userId : Option String) (today : String) (st : ClientState) : ClientState :=
  match userId with
  | some uid => { st with store := (incrementDailySearchCount uid today st.store).1 }
  | none => { st with cookie := (incrementAnonymousSearchCount st.cookie).1 }

/-! ### Summary cleanup (`cleanSummaryText` in `src/App.tsx`)

Each title pattern has the anchored shape
`^<literal>.*?(\n\n|\n)` (case-insensitive), except two which are
`^<literal>.*?Analysis.*?(\n\n|\n)`.  They are modelled by a component
list interpreted by a backtracking matcher with JS regex semantics:
`.` excludes line terminators, `.*?` is lazy, `(\n\n|\n)` prefers the
two-newline branch, and the `i` flag compares characters lower-cased
(all pattern literals are ASCII). -/

/-- A component of one of the anchored title regexes. -/
inductive PatComp
  | lit (s : List Char)
  | dotLazy
  | nlGroup
deriving DecidableEq

/-- JS regex `.` (without the `s` flag) matches anything but a line
terminator. -/
def isLineTerm (c : Char) : Bool :=
  c = '\n' || c = '\r' || c = '\u2028' || c = '\u2029'

/-- Case-insensitive literal match: returns the remaining characters when
`s` is a (case-folded) initial segment of `cs`. -/
def ciLit : List Char → List Char → Option (List Char)
  | [], cs => some cs
  | _ :: _, [] => none
  | a :: as, c :: cs => if c.toLower = a.toLower then ciLit as cs else none

/-- Anchored backtracking matcher: length of the (laziness-respecting
first) match of the component list at the start of `cs`, if any.  A
`.dotLazy` tries the rest after zero characters first, then consumes one
non-line-terminator character and retries.  Recursion is made structural
on a fuel argument; every recursive call decreases the pair
(component-list length, character-list length) lexicographically, so
`(comps.length + 1) * (cs.length + 2)` fuel (used by the `matchComps`
wrapper) can never run out. -/
def matchCompsF : Nat → List PatComp → List Char → Option Nat
  | 0, _, _ => none
  | _ + 1, [], _ => some 0
  | f + 1, .lit s :: rest, cs =>
      match ciLit s cs with
      | some cs2 => (matchCompsF f rest cs2).map (· + s.length)
      | none => none
  | f + 1, .dotLazy :: rest, cs =>
      match matchCompsF f rest cs with
      | some n => some n
      | none =>
          match cs with
          | c :: cs2 =>
              if isLineTerm c then none
              else (matchCompsF f (.dotLazy :: rest) cs2).map (· + 1)
          | [] => none
  | f + 1, .nlGroup :: rest, cs =>
      match cs with
      | '\n' :: '\n' :: cs2 =>
          match matchCompsF f rest cs2 with
          | some n => some (n + 2)
          | none => (matchCompsF f rest ('\n' :: cs2)).map (· + 1)
      | '\n' :: cs2 => (matchCompsF f rest cs2).map (· + 1)
      | _ => none

/-- See `matchCompsF`. -/
def matchComps (comps : List PatComp) (cs : List Char) : Option Nat :=
  matchCompsF ((comps.length + 1) * (cs.length + 2)) comps cs

/-- The fourteen `titlePatterns` of `cleanSummaryText`, in source order. -/
def titlePatterns : List (List PatComp) :=
  [ [.lit "# Reddit Data Analysis".data, .dotLazy, .nlGroup]
  , [.lit "# Analysis of".data, .dotLazy, .nlGroup]
  , [.lit "# Summary of".data, .dotLazy, .nlGroup]
  , [.lit "# Reddit Discussion".data, .dotLazy, .nlGroup]
  , [.lit "# ".data, .dotLazy, .lit "Analysis".data, .dotLazy, .nlGroup]
  , [.lit "## Reddit Data Analysis".data, .dotLazy, .nlGroup]
  , [.lit "## Analysis of".data, .dotLazy, .nlGroup]
  , [.lit "## Summary of".data, .dotLazy, .nlGroup]
  , [.lit "## Reddit Discussion".data, .dotLazy, .nlGroup]
  , [.lit "## ".data, .dotLazy, .lit "Analysis".data, .dotLazy, .nlGroup]
  , [.lit "Reddit Data Analysis".data, .dotLazy, .nlGroup]
  , [.lit "Analysis of".data, .dotLazy, .nlGroup]
  , [.lit "Summary of".data, .dotLazy, .nlGroup]
  , [.lit "Reddit Discussion".data, .dotLazy, .nlGroup]
  ]

/-- `cleanedText.replace(pattern, '')` for one anchored pattern: delete the
matched prefix, or leave the text unchanged when there is no match. -/
def stripPattern (p : List PatComp) (cs : List Char) : List Char :=
  match matchComps p cs with
  | some n => cs.drop n
  | none => cs

/-- JS whitespace (the characters relevant here; `\s` and `trim` also
accept further Unicode space characters, which no claim exercises). -/
def isWsJS (c : Char) : Bool :=
  c = ' ' || c = '\t' || c = '\n' || c = '\r' || c = '\x0b' || c = '\x0c'

/-- JS `String.prototype.trim`: drop whitespace from both ends. -/
def trimChars (cs : List Char) : List Char :=
  ((cs.dropWhile isWsJS).reverse.dropWhile isWsJS).reverse

/-- Character-level `cleanSummaryText`: apply the fourteen patterns in
order (`titlePatterns.forEach`), then `trim`. -/
def cleanChars (cs : List Char) : List Char :=
  trimChars (titlePatterns.foldl (fun s p => stripPattern p s) cs)

/-- `cleanSummaryText` from `src/App.tsx`. -/
def cleanSummaryText (text : String) : String :=
  ⟨cleanChars text.data⟩

/-! ### Link enhancer (`enhanceTextWithLinks` in `src/App.tsx`)

For each term with a non-empty candidate list the code builds
`new RegExp("\\b(" + variations.join("|") + ")\\b", "gi")` and rewrites
the text with a callback that links only the first match.  The pattern is
modelled by a list of alternatives, each a list of atoms (`\s+` appears
via the `term.split(' ').join('\\s+')` variation; all other characters
are literals — the model is faithful for terms without regex
metacharacters, which `regexSafe` captures).  Matching is JS semantics:
leftmost position wins, alternatives are tried in order, `\s+` is greedy
with backtracking, `\b` is a word/non-word boundary, and the `i` flag
compares characters lower-cased. -/

/-- JS regex `\w`: ASCII letters, digits and underscore. -/
def isWordChar (c : Char) : Bool :=
  (('a' ≤ c && c ≤ 'z') || ('A' ≤ c && c ≤ 'Z') || ('0' ≤ c && c ≤ '9') || c = '_')

/-- Word-ness of the first character (`false` at the end of the text). -/
def headIsWord (cs : List Char) : Bool :=
  match cs with
  | [] => false
  | c :: _ => isWordChar c

/-- One atom of a pattern alternative: a literal character (matched
case-insensitively) or `\s+`.  `wsMore` is the internal state of a
partially consumed `\s+` (never produced by the pattern builder). -/
inductive TAtom
  | ch (c : Char)
  | wsOnePlus
  | wsMore
deriving DecidableEq

/-- Match one alternative anchored at `cs` and require the trailing `\b`;
`prevW` is the word-ness of the character before the current position.
Returns the number of characters consumed.  `\s+` is greedy: extend the
whitespace run as far as possible, then backtrack.  Fuel makes the
recursion structural; every call decreases (atom-list length,
character-list length) lexicographically, so the fuel supplied by
`matchAtoms` can never run out. -/
def matchAtomsF : Nat → List TAtom → List Char → Bool → Option Nat
  | 0, _, _, _ => none
  | _ + 1, [], cs, prevW => if prevW != headIsWord cs then some 0 else none
  | f + 1, .ch a :: rest, cs, _ =>
      match cs with
      | c :: cs2 =>
          if c.toLower = a.toLower then (matchAtomsF f rest cs2 (isWordChar c)).map (· + 1)
          else none
      | [] => none
  | f + 1, .wsOnePlus :: rest, cs, _ =>
      match cs with
      | c :: cs2 =>
          if isWsJS c then (matchAtomsF f (.wsMore :: rest) cs2 (isWordChar c)).map (· + 1)
          else none
      | [] => none
  | f + 1, .wsMore :: rest, cs, prevW =>
      match cs with
      | c :: cs2 =>
          if isWsJS c then
            match matchAtomsF f (.wsMore :: rest) cs2 (isWordChar c) with
            | some n => some (n + 1)
            | none => matchAtomsF f rest cs prevW
          else matchAtomsF f rest cs prevW
      | [] => matchAtomsF f rest [] prevW

/-- See `matchAtomsF`. -/
def matchAtoms (atoms : List TAtom) (cs : List Char) (prevW : Bool) : Option Nat :=
  matchAtomsF ((atoms.length + 1) * (cs.length + 2)) atoms cs prevW

/-- Try the alternatives of the `(v1|v2|v3|v4)` group in order — JS
alternation prefers the leftmost alternative that completes a match. -/
def matchAlts (alts : List (List TAtom)) (cs : List Char) (prevW : Bool) : Option Nat :=
  match alts with
  | [] => none
  | a :: rest =>
      match matchAtoms a cs prevW with
      | some n => some n
      | none => matchAlts rest cs prevW

/-- Attempt of the full pattern `\b(alts)\b` at the current position:
the leading `\b` requires the word-ness to change between the previous
character and the current one. -/
def tryMatchAt (alts : List (List TAtom)) (cs : List Char) (prevW : Bool) : Option Nat :=
  if prevW != headIsWord cs then matchAlts alts cs prevW else none

/-- Scan left to right for the first position where the full pattern
`\b(alts)\b` matches; return the text split as
(characters before the match, matched characters, characters after). -/
def findFirstFrom (alts : List (List TAtom)) : List Char → Bool →
    Option (List Char × List Char × List Char)
  | [], prevW =>
      match tryMatchAt alts [] prevW with
      | some _ => some ([], [], [])
      | none => none
  | c :: cs2, prevW =>
      match tryMatchAt alts (c :: cs2) prevW with
      | some n => some ([], (c :: cs2).take n, (c :: cs2).drop n)
      | none =>
          match findFirstFrom alts cs2 (isWordChar c) with
          | some (p, m, r) => some (c :: p, m, r)
          | none => none

/-- `` `[${match}](${bestLink.url})` ``. -/
def wrapLink (m url : List Char) : List Char :=
  '[' :: (m ++ ']' :: '(' :: (url ++ [')']))

/-- The stateful replacement callback of `enhanceTextWithLinks`: process
the matches of the global regex left to right; the first match (while
`hasReplaced` is still false) is replaced by `wrapLink`, every later
match is replaced by itself.  After a zero-length match the scan resumes
one character further (JS advances `lastIndex` past an empty match);
after a non-empty match it resumes right after the match, tracking the
word-ness of the last matched character for the `\b` of the next match.
Fuel makes the recursion structural; each step consumes at least one
character, so the fuel supplied by `replaceLoop` can never run out. -/
def replaceLoopF (alts : List (List TAtom)) (url : List Char) :
    Nat → List Char → Bool → Bool → List Char
  | 0, cs, _, _ => cs
  | f + 1, cs, prevW, hasReplaced =>
      match findFirstFrom alts cs prevW with
      | none => cs
      | some (p, m, r) =>
          match m, r with
          | [], [] => p ++ (if hasReplaced then ([] : List Char) else wrapLink [] url)
          | [], c :: r2 =>
              p ++ (if hasReplaced then ([] : List Char) else wrapLink [] url)
                ++ c :: replaceLoopF alts url f r2 (isWordChar c) true
          | c0 :: m2, r3 =>
              p ++ (if hasReplaced then c0 :: m2 else wrapLink (c0 :: m2) url)
                ++ replaceLoopF alts url f r3 (isWordChar (m2.getLastD c0)) true

/-- See `replaceLoopF`. -/
def replaceLoop (alts : List (List TAtom)) (url : List Char)
    (cs : List Char) (prevW hasReplaced : Bool) : List Char :=
  replaceLoopF alts url (cs.length + 1) cs prevW hasReplaced

/-- `interface` of one enhanced-link candidate; the algorithm reads only
`url` and `relevance_score` (the `title`/`snippet` metadata are never
consulted).  JS float scores are modelled as rationals. -/
structure LinkCandidate where
  url : String
  relevance_score : Option ℚ
deriving DecidableEq

/-- `current.relevance_score || 0`. -/
def scoreOf (c : LinkCandidate) : ℚ := c.relevance_score.getD 0

/-- `links.reduce((best, current) => current.relevance_score > best... ,
links[0])`: fold over the whole list with `links[0]` as the initial
accumulator, replacing the accumulator only on a strictly greater
score. -/
def bestLink (l0 : LinkCandidate) (links : List LinkCandidate) : LinkCandidate :=
  links.foldl (fun best cur => if scoreOf cur > scoreOf best then cur else best) l0

/-- The characters `term.replace(/[^a-zA-Z0-9\s]/g, '')` keeps. -/
def keepAlnumWs (c : Char) : Bool :=
  (('a' ≤ c && c ≤ 'z') || ('A' ≤ c && c ≤ 'Z') || ('0' ≤ c && c ≤ '9') || isWsJS c)

/-- The four `termVariations`, compiled: the term itself, the term
lower-cased, the term with special characters removed, and the term with
each single space replaced by `\s+` (`term.split(' ').join('\\s+')`).
Characters are compiled as literals, which is faithful exactly when the
term contains no regex metacharacters (see `regexSafe`). -/
def patternAlts (term : String) : List (List TAtom) :=
  [ term.data.map TAtom.ch
  , term.data.map (fun c => TAtom.ch c.toLower)
  , (term.data.filter keepAlnumWs).map TAtom.ch
  , term.data.map (fun c => if c = ' ' then TAtom.wsOnePlus else TAtom.ch c)
  ]

/-- Terms for which compiling the raw term text as a regex treats every
character literally, so that `patternAlts` is faithful. -/
def regexSafe (term : String) : Bool :=
  term.data.all (fun c => (('a' ≤ c && c ≤ 'z') || ('A' ≤ c && c ≤ 'Z')
    || ('0' ≤ c && c ≤ '9') || c = ' ' || c = '_'))

/-- Enhancement pass for one `(term, links)` entry: skipped when the
candidate list is empty (`Array.isArray(links) && links.length > 0`),
otherwise one global regex replacement with the `hasReplaced` flag
initially false and the best candidate's url. -/
def enhanceTerm (term : String) (links : List LinkCandidate) (text : List Char) : List Char :=
  match links with
  | [] => text
  | l0 :: _ => replaceLoop (patternAlts term) (bestLink l0 links).url.data text false false

/-- `enhanceTextWithLinks`: no-op for an empty mapping, otherwise process
the entries in order (`Object.entries(...).forEach`), each rewriting the
accumulated text. -/
def enhanceTextWithLinks (entries : List (String × List LinkCandidate)) (text : String) :
    String :=
  if entries.isEmpty then text
  else ⟨entries.foldl (fun t e => enhanceTerm e.1 e.2 t) text.data⟩

/-- Decidable substring occurrence (used to state that an inserted link
does or does not survive in the final output). -/
def occursIn (needle : List Char) : List Char → Bool
  | [] => needle.isEmpty
  | c :: hs => needle.isPrefixOf (c :: hs) || occursIn needle hs

/-! ### Usage gate: claims -/

/-- C1 (counterexample): the claim says a failed store read is surfaced and
never yields `can_search = true`; but `checkUsageStatus` on a failed read
returns an ordinary status with `canSearch = true` (the `catch` in
`getDailySearchCount` turns the error into a count of `0`, and
`0 < Infinity`). -/
theorem checkUsageStatus_storeError_canSearch :
    (checkUsageStatus (some "user1") (Except.error StoreErr.unavailable) none).canSearch
      = true := rfl

/-- C1 (amended): when the persisted-store read fails, `checkUsageStatus`
does not surface the failure; it returns a normal status with
`searchCount = 0`, the unbounded free limit, and `canSearch = true`
(it fails open). -/
theorem checkUsageStatus_storeError_failsOpen (uid : String) (e : StoreErr)
    (cookie : Option String) :
    checkUsageStatus (some uid) (Except.error e) cookie =
      { canSearch := true, searchCount := 0, limit := UsageLimit.infinity,
        isAuthenticated := true, requiresSignIn := false } := rfl

/-- C4: starting from an absent (zero) anonymous cookie, after one
`recordSearch` with no identity — `ANONYMOUS_SEARCH_LIMIT = 1` calls —
`checkUsageStatus` with no identity reports `canSearch = false` and
`requiresSignIn = true`. -/
theorem anonymousGate_limitReached (store : UserUsageStore) (today : String)
    (readResult : Except StoreErr (Option Nat)) :
    (checkUsageStatus none readResult
        (recordSearch none today ⟨none, store⟩).cookie).canSearch = false ∧
    (checkUsageStatus none readResult
        (recordSearch none today ⟨none, store⟩).cookie).requiresSignIn = true := by
  have h1 : (recordSearch none today ⟨none, store⟩).cookie
      = (incrementAnonymousSearchCount none).1 := rfl
  have h2 : (incrementAnonymousSearchCount none).1 = some "1" := rfl
  rw [h1, h2]
  exact ⟨rfl, rfl⟩

/-- C8: every model allowed for the `free` tier is allowed for the `paid`
tier, and the `anonymous` and `free` allow-lists are identical. -/
theorem modelAllowList_tierMonotone :
    (∀ m, isModelAllowed m UserTier.free = true → isModelAllowed m UserTier.paid = true) ∧
    getAvailableModels UserTier.anonymous = getAvailableModels UserTier.free := by
  refine ⟨?_, rfl⟩
  intro m h
  simp only [isModelAllowed, getAvailableModels, List.any_cons, List.any_nil,
    Bool.or_false, Bool.or_eq_true, beq_iff_eq] at h ⊢
  exact Or.inl h

/-- C8 (witness): the free model is allowed for `free`, hence for `paid`. -/
theorem modelAllowList_tierMonotone_witness :
    isModelAllowed "gemini-1.5-flash" UserTier.paid = true :=
  modelAllowList_tierMonotone.1 "gemini-1.5-flash" (by decide)

/-- C10: `recordSearch` only touches the counter of the given identity:
with a user id the cookie is untouched; with no user id every persisted
per-`(user, day)` counter is untouched; and with a user id every persisted
counter other than that user's counter for today is untouched. -/
theorem recordSearch_frame :
    (∀ uid today st, (recordSearch (some uid) today st).cookie = st.cookie) ∧
    (∀ today st k, (recordSearch none today st).store k = st.store k) ∧
    (∀ uid today st k, k ≠ usageDocId uid today →
      (recordSearch (some uid) today st).store k = st.store k) := by
  refine ⟨fun uid today st => rfl, fun today st k => rfl, ?_⟩
  intro uid today st k hk
  simp only [recordSearch, incrementDailySearchCount]
  cases h : st.store (usageDocId uid today) <;> simp [h, hk]

/-- C10 (witness): a concrete frame instance — recording a search for user
`"u"` leaves the counter under the unrelated key `"x"` unchanged. -/
theorem recordSearch_frame_witness :
    (recordSearch (some "u") "2025-01-01" ⟨none, fun _ => none⟩).store "x"
      = (ClientState.mk none (fun _ => none)).store "x" :=
  recordSearch_frame.2.2 "u" "2025-01-01" ⟨none, fun _ => none⟩ "x" (by decide)

/-! ### Summary cleanup: claims -/

theorem dropWhile_dropWhile (q : Char → Bool) (l : List Char) :
    (l.dropWhile q).dropWhile q = l.dropWhile q := by
  induction l with
  | nil => rfl
  | cons c cs ih =>
      by_cases h : q c
      · rw [List.dropWhile_cons_of_pos h]; exact ih
      · rw [List.dropWhile_cons_of_neg h, List.dropWhile_cons_of_neg h]

theorem dropWhile_eq_self_of_isPrefix {q : Char → Bool} {l₁ l₂ : List Char}
    (hp : l₂ <+: l₁) (h : l₁.dropWhile q = l₁) : l₂.dropWhile q = l₂ := by
  cases l₂ with
  | nil => rfl
  | cons c cs =>
      obtain ⟨t, rfl⟩ := hp
      rw [List.cons_append] at h
      by_cases hq : q c
      · exfalso
        rw [List.dropWhile_cons_of_pos hq] at h
        have hle : ((cs ++ t).dropWhile q).length ≤ (cs ++ t).length :=
          (List.dropWhile_suffix q).length_le
        have hlen := congrArg List.length h
        simp only [List.length_cons] at hlen
        omega
      · rw [List.dropWhile_cons_of_neg hq]

theorem trimChars_trimChars (l : List Char) : trimChars (trimChars l) = trimChars l := by
  have hb : ((l.dropWhile isWsJS).reverse.dropWhile isWsJS).dropWhile isWsJS
      = (l.dropWhile isWsJS).reverse.dropWhile isWsJS :=
    dropWhile_dropWhile isWsJS (l.dropWhile isWsJS).reverse
  have hpre : trimChars l <+: l.dropWhile isWsJS := by
    have hsuf : (l.dropWhile isWsJS).reverse.dropWhile isWsJS <:+ (l.dropWhile isWsJS).reverse :=
      List.dropWhile_suffix isWsJS
    have h2 := List.reverse_prefix.mpr hsuf
    rwa [List.reverse_reverse] at h2
  have h1 : (trimChars l).dropWhile isWsJS = trimChars l :=
    dropWhile_eq_self_of_isPrefix hpre (dropWhile_dropWhile isWsJS l)
  unfold trimChars
  unfold trimChars at h1
  rw [h1, List.reverse_reverse, hb]

theorem foldl_stripPattern_fix (pats : List (List PatComp)) :
    ∀ x : List Char, (∀ p ∈ pats, stripPattern p x = x) →
      pats.foldl (fun s p => stripPattern p s) x = x := by
  induction pats with
  | nil => intro x _; rfl
  | cons p ps ih =>
      intro x h
      have h1 : stripPattern p x = x := h p (List.mem_cons_self p ps)
      simp only [List.foldl_cons, h1]
      exact ih x (fun q hq => h q (List.mem_cons_of_mem p hq))

theorem stripPattern_eq_drop (p : List PatComp) (s : List Char) :
    ∃ k, stripPattern p s = s.drop k := by
  unfold stripPattern
  cases matchComps p s with
  | none => exact ⟨0, rfl⟩
  | some n => exact ⟨n, rfl⟩

theorem foldl_stripPattern_drop (pats : List (List PatComp)) :
    ∀ s : List Char, ∃ k, pats.foldl (fun s p => stripPattern p s) s = s.drop k := by
  induction pats with
  | nil => intro s; exact ⟨0, rfl⟩
  | cons p ps ih =>
      intro s
      obtain ⟨k1, hk1⟩ := stripPattern_eq_drop p s
      obtain ⟨k2, hk2⟩ := ih (s.drop k1)
      refine ⟨k1 + k2, ?_⟩
      simp only [List.foldl_cons, hk1, hk2, List.drop_drop]

set_option maxRecDepth 8192 in
/-- C6 (counterexample): the title-stripping pre-pass is not idempotent.
On `" Summary of Y\nbody"` no pattern matches (the heading is not at
position 0), so one application only trims the leading space — and the
second application then strips the exposed heading line. -/
theorem cleanSummaryText_not_idempotent :
    cleanSummaryText (cleanSummaryText " Summary of Y\nbody")
      ≠ cleanSummaryText " Summary of Y\nbody" := by decide

/-- C6 (amended): the pre-pass is idempotent on exactly those texts whose
once-cleaned result is not itself stripped further — in particular
whenever no title pattern matches the cleaned text.  (It is not
idempotent in general: the final `trim` and the fixed pattern order can
expose a heading for the second pass, see the counterexample.) -/
theorem cleanSummaryText_idempotent_of_fixed (text : String)
    (h : ∀ p ∈ titlePatterns,
      stripPattern p (cleanSummaryText text).data = (cleanSummaryText text).data) :
    cleanSummaryText (cleanSummaryText text) = cleanSummaryText text := by
  have hmk : ∀ s : String, cleanSummaryText s = ⟨cleanChars s.data⟩ := fun s => rfl
  have hproj : ∀ l : List Char, (⟨l⟩ : String).data = l := fun l => rfl
  have hX : (cleanSummaryText text).data = cleanChars text.data :=
    (congrArg String.data (hmk text)).trans (hproj (cleanChars text.data))
  rw [hX] at h
  have hfold := foldl_stripPattern_fix titlePatterns (cleanChars text.data) h
  rw [hmk text, hmk ⟨cleanChars text.data⟩, hproj (cleanChars text.data)]
  refine congrArg String.mk ?_
  have h2 : ∀ l, cleanChars l
      = trimChars (titlePatterns.foldl (fun s p => stripPattern p s) l) := fun l => rfl
  rw [h2 (cleanChars text.data), hfold, h2 text.data]
  exact trimChars_trimChars (titlePatterns.foldl (fun s p => stripPattern p s) text.data)

/-- C6 (witness): on `"body"` nothing is stripped, so cleaning twice
equals cleaning once. -/
theorem cleanSummaryText_idempotent_witness :
    cleanSummaryText (cleanSummaryText "body") = cleanSummaryText "body" :=
  cleanSummaryText_idempotent_of_fixed "body" (by decide)

/-- C7 (counterexample): a single application can delete more than one
leading line — here both `"Analysis of X"` and `"Summary of Y"` are
removed, so the output is not the claimed
`"Summary of Y\nbody"` (one line removed, remainder unchanged). -/
theorem cleanSummaryText_two_lines_removed :
    cleanSummaryText "Analysis of X\nSummary of Y\nbody" = "body" ∧
      ("body" : String) ≠ "Summary of Y\nbody" := by
  constructor
  · decide
  · decide

/-- C7 (amended): a single application of `cleanSummaryText` only ever
deletes a prefix of the text (each of the fourteen patterns, applied once
in order, removes at most one matching prefix, so several leading
boilerplate lines can go in one pass) and then trims surrounding
whitespace: the output is always `trim` of some tail of the input. -/
theorem cleanSummaryText_drops_prefix (text : String) :
    ∃ k, cleanSummaryText text = ⟨trimChars (text.data.drop k)⟩ := by
  obtain ⟨k, hk⟩ := foldl_stripPattern_drop titlePatterns text.data
  refine ⟨k, ?_⟩
  show (⟨cleanChars text.data⟩ : String) = _
  unfold cleanChars
  rw [hk]

/-! ### Link enhancer: claims -/

theorem findFirstFrom_stitch (alts : List (List TAtom)) :
    ∀ (cs : List Char) (w : Bool) (p m r : List Char),
      findFirstFrom alts cs w = some (p, m, r) → p ++ m ++ r = cs := by
  intro cs
  induction cs with
  | nil =>
      intro w p m r h
      unfold findFirstFrom at h
      split at h
      · simp only [Option.some.injEq, Prod.mk.injEq] at h
        obtain ⟨rfl, rfl, rfl⟩ := h
        rfl
      · simp at h
  | cons c cs2 ih =>
      intro w p m r h
      unfold findFirstFrom at h
      split at h
      · simp only [Option.some.injEq, Prod.mk.injEq] at h
        obtain ⟨rfl, rfl, rfl⟩ := h
        simp [List.take_append_drop]
      · split at h
        · rename_i p2 m2 r2 hrec
          simp only [Option.some.injEq, Prod.mk.injEq] at h
          obtain ⟨rfl, rfl, rfl⟩ := h
          have hst := ih (isWordChar c) p2 m2 r2 hrec
          simp only [List.cons_append]
          rw [hst]
        · simp at h

theorem replaceLoopF_true (alts : List (List TAtom)) (url : List Char) :
    ∀ (f : Nat) (cs : List Char) (prevW : Bool), cs.length < f →
      replaceLoopF alts url f cs prevW true = cs := by
  intro f
  induction f with
  | zero => intro cs prevW h; exact absurd h (Nat.not_lt_zero _)
  | succ f ih =>
      intro cs prevW h
      unfold replaceLoopF
      split
      · rfl
      · rename_i p m r hff
        have hst := findFirstFrom_stitch alts cs prevW p m r hff
        have hlentot := congrArg List.length hst
        simp only [List.length_append] at hlentot
        split
        · simpa using hst
        · rename_i c r2
          have hlen : r2.length < f := by
            simp only [List.length_nil, List.length_cons] at hlentot
            omega
          rw [if_pos rfl, ih r2 (isWordChar c) hlen]
          simpa using hst
        · rename_i c0 m2
          have hlen : r.length < f := by
            simp only [List.length_cons] at hlentot
            omega
          rw [if_pos rfl, ih r (isWordChar (m2.getLastD c0)) hlen]
          exact hst

theorem replaceLoopF_false (alts : List (List TAtom)) (url : List Char)
    (f : Nat) (cs : List Char) (prevW : Bool) (h : cs.length < f) :
    replaceLoopF alts url f cs prevW false =
      (match findFirstFrom alts cs prevW with
       | none => cs
       | some (p, m, r) => p ++ wrapLink m url ++ r) := by
  cases f with
  | zero => exact absurd h (Nat.not_lt_zero _)
  | succ f =>
      cases hff : findFirstFrom alts cs prevW with
      | none =>
          unfold replaceLoopF
          simp only [hff]
      | some t =>
          obtain ⟨p, m, r⟩ := t
          have hst := findFirstFrom_stitch alts cs prevW p m r hff
          have hlentot := congrArg List.length hst
          simp only [List.length_append] at hlentot
          unfold replaceLoopF
          simp only [hff]
          split
          · simp
          · rename_i c r2
            have hlen : r2.length < f := by
              simp only [List.length_nil, List.length_cons] at hlentot
              omega
            rw [if_neg (by simp), replaceLoopF_true alts url f r2 (isWordChar c) hlen]
          · rename_i c0 m2
            have hlen : r.length < f := by
              simp only [List.length_cons] at hlentot
              omega
            rw [if_neg (by simp), replaceLoopF_true alts url f r
              (isWordChar (m2.getLastD c0)) hlen]

/-- C2: for every text and every regex-safe term with a non-empty
candidate list, the enhancement pass for that term wraps at most one
occurrence: either nothing matches and the text is unchanged, or the
text splits as `p ++ m ++ r` with exactly the first match `m` replaced by
`[m](url)` — the label is the matched substring itself, so its casing is
preserved — and everything else, including every later occurrence,
verbatim.  In the concrete double-occurrence scenario exactly the first
occurrence is wrapped and the second stays plain text.  (The `regexSafe`
hypothesis marks where compiling the raw term as a regex is literal,
the only case the model covers.) -/
theorem enhanceTerm_single_substitution :
    (∀ (term : String) (l0 : LinkCandidate) (ls : List LinkCandidate) (text : List Char),
      regexSafe term = true →
      enhanceTerm term (l0 :: ls) text = text ∨
      ∃ p m r, text = p ++ m ++ r ∧
        enhanceTerm term (l0 :: ls) text
          = p ++ wrapLink m (bestLink l0 (l0 :: ls)).url.data ++ r) ∧
    enhanceTextWithLinks [("Widgets", [⟨"https://a", some (mkRat 1 2)⟩])]
        "Widgets are popular. Widgets last long."
      = "[Widgets](https://a) are popular. Widgets last long." := by
  constructor
  · intro term l0 ls text _hsafe
    simp only [enhanceTerm, replaceLoop]
    rw [replaceLoopF_false (patternAlts term) (bestLink l0 (l0 :: ls)).url.data
      (text.length + 1) text false (Nat.lt_succ_self _)]
    cases hff : findFirstFrom (patternAlts term) text false with
    | none => left; simp only [hff]
    | some t =>
        obtain ⟨p, m, r⟩ := t
        right
        exact ⟨p, m, r, (findFirstFrom_stitch _ text false p m r hff).symm,
          by simp only [hff]⟩
  · decide

/-- C2 (witness): the general single-substitution disjunction at a
concrete regex-safe term, candidate and text. -/
theorem enhanceTerm_single_substitution_witness :
    enhanceTerm "Widgets" [⟨"https://a", some (mkRat 1 2)⟩] "hi Widgets".data
        = "hi Widgets".data ∨
    ∃ p m r, "hi Widgets".data = p ++ m ++ r ∧
      enhanceTerm "Widgets" [⟨"https://a", some (mkRat 1 2)⟩] "hi Widgets".data
        = p ++ wrapLink m
            (bestLink ⟨"https://a", some (mkRat 1 2)⟩ [⟨"https://a", some (mkRat 1 2)⟩]).url.data ++ r :=
  enhanceTerm_single_substitution.1 "Widgets" ⟨"https://a", some (mkRat 1 2)⟩ []
    "hi Widgets".data (by decide)

theorem bestLink_foldl_spec :
    ∀ (l : List LinkCandidate) (acc : LinkCandidate),
      (l.foldl (fun best cur => if scoreOf cur > scoreOf best then cur else best) acc = acc
        ∧ ∀ c ∈ l, scoreOf c ≤ scoreOf acc) ∨
      (∃ pre b suf, l = pre ++ b :: suf
        ∧ l.foldl (fun best cur => if scoreOf cur > scoreOf best then cur else best) acc = b
        ∧ scoreOf acc < scoreOf b
        ∧ (∀ c ∈ pre, scoreOf c < scoreOf b)
        ∧ (∀ c ∈ suf, scoreOf c ≤ scoreOf b)) := by
  intro l
  induction l with
  | nil => intro acc; left; exact ⟨rfl, by simp⟩
  | cons c cs ih =>
      intro acc
      by_cases hc : scoreOf c > scoreOf acc
      · have hstep : (c :: cs).foldl
            (fun best cur => if scoreOf cur > scoreOf best then cur else best) acc
            = cs.foldl (fun best cur => if scoreOf cur > scoreOf best then cur else best) c := by
          simp only [List.foldl_cons, if_pos hc]
        rcases ih c with ⟨h1, h2⟩ | ⟨pre, b, suf, heq, hfold, hlt, hpre, hsuf⟩
        · right
          exact ⟨[], c, cs, rfl, by rw [hstep, h1], hc, by simp, h2⟩
        · right
          refine ⟨c :: pre, b, suf, by rw [heq, List.cons_append], by rw [hstep, hfold],
            lt_trans hc hlt, ?_, hsuf⟩
          intro x hx
          rcases List.mem_cons.mp hx with rfl | hx2
          · exact hlt
          · exact hpre x hx2
      · have hstep : (c :: cs).foldl
            (fun best cur => if scoreOf cur > scoreOf best then cur else best) acc
            = cs.foldl (fun best cur => if scoreOf cur > scoreOf best then cur else best) acc := by
          simp only [List.foldl_cons, if_neg hc]
        rcases ih acc with ⟨h1, h2⟩ | ⟨pre, b, suf, heq, hfold, hlt, hpre, hsuf⟩
        · left
          refine ⟨by rw [hstep, h1], ?_⟩
          intro x hx
          rcases List.mem_cons.mp hx with rfl | hx2
          · exact le_of_not_lt hc
          · exact h2 x hx2
        · right
          refine ⟨c :: pre, b, suf, by rw [heq, List.cons_append], by rw [hstep, hfold],
            hlt, ?_, hsuf⟩
          intro x hx
          rcases List.mem_cons.mp hx with rfl | hx2
          · exact lt_of_le_of_lt (le_of_not_lt hc) hlt
          · exact hpre x hx2

/-- C3: `bestLink` (whose url the enhancer inserts) is the first-listed
candidate of maximum relevance score (missing scores read as 0, ties
keep the earlier candidate): the candidate list splits as
`pre ++ best :: suf` with every candidate in `pre` scoring strictly
less and every candidate overall scoring at most `best`; and in the
0.4 / 0.9 example the inserted url is the 0.9 candidate's. -/
theorem bestLink_highest_relevance :
    (∀ (l0 : LinkCandidate) (ls : List LinkCandidate),
      ∃ pre suf, l0 :: ls = pre ++ bestLink l0 (l0 :: ls) :: suf
        ∧ (∀ c ∈ pre, scoreOf c < scoreOf (bestLink l0 (l0 :: ls)))
        ∧ (∀ c ∈ l0 :: ls, scoreOf c ≤ scoreOf (bestLink l0 (l0 :: ls)))) ∧
    enhanceTextWithLinks
        [("Widgets", [⟨"https://a", some (mkRat 2 5)⟩, ⟨"https://b", some (mkRat 9 10)⟩])]
        "Widgets rock."
      = "[Widgets](https://b) rock." := by
  constructor
  · intro l0 ls
    rcases bestLink_foldl_spec (l0 :: ls) l0 with ⟨h1, h2⟩ |
        ⟨pre, b, suf, heq, hfold, _hlt, hpre, hsuf⟩
    · refine ⟨[], ls, ?_, by simp, ?_⟩
      · rw [show bestLink l0 (l0 :: ls) = l0 from h1]
        rfl
      · intro c hc
        rw [show bestLink l0 (l0 :: ls) = l0 from h1]
        exact h2 c hc
    · refine ⟨pre, suf, ?_, ?_, ?_⟩
      · rw [show bestLink l0 (l0 :: ls) = b from hfold]
        exact heq
      · intro c hc
        rw [show bestLink l0 (l0 :: ls) = b from hfold]
        exact hpre c hc
      · intro c hc
        rw [show bestLink l0 (l0 :: ls) = b from hfold]
        rw [heq] at hc
        rcases List.mem_append.mp hc with h | h
        · exact le_of_lt (hpre c h)
        · rcases List.mem_cons.mp h with rfl | h2
          · exact le_refl _
          · exact hsuf c h2
  · decide

/-- C5 (counterexample): terms are processed against the already-rewritten
text with no span bookkeeping, so the second term `"beta"` first matches
inside the url of the link inserted for `"alpha"` and is substituted
there; the earlier link `[alpha](http://beta.com)` does not appear
intact in the output. -/
theorem enhanceTextWithLinks_overlap_counterexample :
    enhanceTextWithLinks
        [("alpha", [⟨"http://beta.com", none⟩]), ("beta", [⟨"u2", none⟩])]
        "alpha beta"
      = "[alpha](http://[beta](u2).com) beta" ∧
    occursIn "[alpha](http://beta.com)".data
        (enhanceTextWithLinks
          [("alpha", [⟨"http://beta.com", none⟩]), ("beta", [⟨"u2", none⟩])]
          "alpha beta").data = false := by
  constructor
  · decide
  · decide

/-- C5 (amended): a later-processed term is matched against the
already-rewritten text, including inside previously substituted spans;
a match starting inside an earlier link's label or url is substituted
there (it is not left as plain text), which can corrupt the earlier
link — as in this two-term example, where the second term's first match
lies inside the first link's url. -/
theorem enhanceTextWithLinks_overlap_rewrites :
    occursIn "[beta](u2)".data
        (enhanceTextWithLinks
          [("alpha", [⟨"http://beta.com", none⟩]), ("beta", [⟨"u2", none⟩])]
          "alpha beta").data = true := by decide

/-- C9 (counterexample): an empty-string term with a non-empty candidate
list is not ignored: its compiled pattern `\b(|||)\b` matches the empty
string at the first word boundary, so an empty-labelled link is inserted
and the output differs from the input. -/
theorem enhanceTextWithLinks_empty_term_counterexample :
    enhanceTextWithLinks [("", [⟨"u", none⟩])] "hi" ≠ "hi" := by decide

/-- C9 (amended): the enhancer ignores a term exactly when its candidate
list is empty (`Array.isArray(links) && links.length > 0`); an
empty-string term with a candidate is matched — its pattern matches the
empty string at the first word boundary — and an empty-labelled link
`[](url)` is inserted there. -/
theorem enhanceTerm_empty_candidates_noop :
    (∀ (term : String) (text : List Char), enhanceTerm term [] text = text) ∧
    enhanceTextWithLinks [("", [⟨"u", none⟩])] "hi" = "[](u)hi" := by
  exact ⟨fun term text => rfl, by decide⟩
